import Mathlib

/- Shallow embedding of the symbol-tracking and bounded-history core of the
realtime stock ticker (src/app.py class StockTicker, src/utils.py helpers,
src/config.py constants).

Modelling conventions:
- Python strings are Lean Strings; str.upper / str.strip are modelled over
  the ASCII range (the symbol domain of the application).
- Python floats coming from the market-data provider are modelled as
  rationals, so the arithmetic (change, change_percent) is exact.
- Python dicts are insertion-ordered association lists; assignment to an
  existing key updates it in place, assignment to a fresh key appends.
- collections.deque(maxlen=100) is a list whose append drops the head once
  the length has reached the bound.
- yfinance calls are an oracle parameter: a function from a symbol to an
  optional fetch result; the none case covers both a raised exception and
  a response the code treats as failure. -/

namespace StockApp

/-- ASCII model of Python str.upper, as used by app.py (symbol.upper()). -/
def pyUpper (s : String) : String :=
  ⟨s.data.map Char.toUpper⟩

/-- ASCII model of Python str.strip: drop whitespace from both ends
(utils.py, validate_stock_symbol normalization). -/
def pyStrip (s : String) : String :=
  ⟨((s.data.dropWhile Char.isWhitespace).reverse.dropWhile Char.isWhitespace).reverse⟩

/-- config.py: MAX_STOCKS_TO_TRACK = 20. -/
def MAX_STOCKS_TO_TRACK : Nat := 20

/-- config.py: MAX_PRICE_HISTORY = 100; app.py hardcodes the same bound in
deque(maxlen=100). -/
def MAX_PRICE_HISTORY : Nat := 100

/-- utils.py validate_stock_symbol: falsy input is rejected; otherwise the
input is stripped, uppercased, and matched against VALID_SYMBOL_PATTERN
(config.py: one to five uppercase letters, anchored on both sides). -/
def validate_stock_symbol (symbol : String) : Bool :=
  if symbol.data.isEmpty then false
  else
    let s := (pyUpper (pyStrip symbol)).data
    decide (1 ≤ s.length) && decide (s.length ≤ 5) && s.all Char.isUpper

/-- utils.py calculate_percentage_change: 0 when previous == 0, otherwise
((current - previous) / previous) * 100. -/
def calculate_percentage_change (current previous : ℚ) : ℚ :=
  if previous = 0 then 0 else (current - previous) / previous * 100

/-- One entry of a price-history deque (app.py get_stock_data):
the pair of datetime.now() and the current price. -/
structure PriceSample where
  timestamp : Nat
  price : ℚ
deriving DecidableEq

/-- Python dict lookup d.get(k) on an association list. -/
def dictGet {α : Type} (d : List (String × α)) (k : String) : Option α :=
  (d.find? (fun p => p.1 == k)).map (fun p => p.2)

/-- Python dict assignment d[k] = v: update in place when the key exists,
append otherwise (insertion order preserved). -/
def dictSet {α : Type} (d : List (String × α)) (k : String) (v : α) : List (String × α) :=
  if d.any (fun p => p.1 == k) then
    d.map (fun p => if p.1 == k then (k, v) else p)
  else
    d ++ [(k, v)]

/-- Python del d[k]: drop the key. -/
def dictDel {α : Type} (d : List (String × α)) (k : String) : List (String × α) :=
  d.filter (fun p => p.1 != k)

/-- app.py class StockTicker: the tracked-symbol list and the per-symbol
price-history dict. -/
structure StockTicker where
  symbols : List String
  price_history : List (String × List PriceSample)
deriving DecidableEq

/-- StockTicker.__init__: empty list, empty dict. -/
def StockTicker.init : StockTicker :=
  { symbols := [], price_history := [] }

/-- app.py StockTicker.add_symbol: if the uppercased input is not already
present (case-insensitively), append it and give it a fresh empty history
deque and return True; otherwise return False. -/
def add_symbol (t : StockTicker) (symbol : String) : Bool × StockTicker :=
  if pyUpper symbol ∈ t.symbols.map pyUpper then
    (false, t)
  else
    (true, { symbols := t.symbols ++ [pyUpper symbol]
           , price_history := dictSet t.price_history (pyUpper symbol) [] })

/-- app.py StockTicker.remove_symbol: if the uppercased input occurs
(case-insensitively), remove its first occurrence from the list, delete its
history entry when present, and return True; otherwise return False.
(list.remove deletes the first equal element; it can only be reached when
the guard holds, so the total List.erase is a faithful model.) -/
def remove_symbol (t : StockTicker) (symbol : String) : Bool × StockTicker :=
  if pyUpper symbol ∈ t.symbols.map pyUpper then
    (true, { symbols := t.symbols.erase (pyUpper symbol)
           , price_history :=
               if t.price_history.any (fun p => p.1 == pyUpper symbol) then
                 dictDel t.price_history (pyUpper symbol)
               else
                 t.price_history })
  else
    (false, t)

/-- collections.deque(maxlen) append: push at the tail, evicting the head
once the length has reached the bound. -/
def dequeAppend (maxlen : Nat) (buf : List PriceSample) (x : PriceSample) : List PriceSample :=
  if maxlen ≤ buf.length then buf.tail ++ [x] else buf ++ [x]

/-- The subset of the yfinance ticker.info fields read by get_stock_data;
each is optional because the code supplies a default via info.get. -/
structure TickerInfo where
  previousClose : Option ℚ
  volume : Option Int
  marketCap : Option ℚ
  trailingPE : Option ℚ
  longName : Option String
  sector : Option String
  industry : Option String

/-- A successful raw response for one symbol: the info record and the
one-day/one-minute close series (current price = last close). -/
structure FetchResult where
  info : TickerInfo
  hist_close : List ℚ

/-- The dict returned by app.py get_stock_data on success. -/
structure QuoteRecord where
  symbol : String
  current_price : ℚ
  previous_close : ℚ
  change : ℚ
  change_percent : ℚ
  volume : Int
  market_cap : ℚ
  pe_ratio : ℚ
  company_name : String
  sector : String
  industry : String
  timestamp : Nat

/-- app.py StockTicker.get_stock_data. The three failure exits model, in
order: a raised yfinance error (caught by the broad except), an empty
history frame (the function falls through and returns None), and a KeyError
on self.price_history[symbol] (also caught by the except). On success the
sample is appended to the symbol's deque and the quote dict is returned. -/
def get_stock_data (t : StockTicker) (fetch : String → Option FetchResult)
    (now : Nat) (symbol : String) : Option QuoteRecord × StockTicker :=
  match fetch symbol with
  | none => (none, t)
  | some r =>
    match r.hist_close.getLast? with
    | none => (none, t)
    | some current_price =>
      let previous_close := r.info.previousClose.getD current_price
      let change := current_price - previous_close
      let change_percent := if previous_close = 0 then 0 else change / previous_close * 100
      match dictGet t.price_history symbol with
      | none => (none, t)
      | some buf =>
        let newbuf := dequeAppend MAX_PRICE_HISTORY buf { timestamp := now, price := current_price }
        let t' : StockTicker :=
          { t with price_history := dictSet t.price_history symbol newbuf }
        (some { symbol := symbol
              , current_price := current_price
              , previous_close := previous_close
              , change := change
              , change_percent := change_percent
              , volume := r.info.volume.getD 0
              , market_cap := r.info.marketCap.getD 0
              , pe_ratio := r.info.trailingPE.getD 0
              , company_name := r.info.longName.getD symbol
              , sector := r.info.sector.getD "N/A"
              , industry := r.info.industry.getD "N/A"
              , timestamp := now }, t')

/-- Loop body of app.py StockTicker.get_all_data: walk the tracked symbols
in order, keeping the successful quotes in an insertion-ordered dict. -/
def get_all_data_aux (fetch : String → Option FetchResult) (now : Nat) :
    List String → StockTicker → List (String × QuoteRecord) →
    List (String × QuoteRecord) × StockTicker
  | [], t, data => (data, t)
  | s :: rest, t, data =>
    match get_stock_data t fetch now s with
    | (some d, t') => get_all_data_aux fetch now rest t' (dictSet data s d)
    | (none, t') => get_all_data_aux fetch now rest t' data

/-- app.py StockTicker.get_all_data. -/
def get_all_data (t : StockTicker) (fetch : String → Option FetchResult)
    (now : Nat) : List (String × QuoteRecord) × StockTicker :=
  get_all_data_aux fetch now t.symbols t []

/-- HistoryStore.get: the stored buffer of a symbol, empty when absent
(the chart code reads ticker.price_history[symbol] only after a membership
test, so absent keys behave as an empty history). -/
def history_of (t : StockTicker) (symbol : String) : List PriceSample :=
  (dictGet t.price_history symbol).getD []

/-- A cycle treats a symbol as fetched successfully when the oracle answers
and the close series is nonempty (app.py: no exception and "not hist.empty"). -/
def fetchOk (fetch : String → Option FetchResult) (symbol : String) : Bool :=
  match fetch symbol with
  | none => false
  | some r => !r.hist_close.isEmpty

/-- Model of Python "%.2f" formatting of a rational: optional sign, integer
part, and the absolute value rounded to the nearest hundredth. -/
def formatF2 (q : ℚ) : String :=
  let c : Nat := (q.num.natAbs * 200 + q.den) / (2 * q.den)
  let sign := if q < 0 then "-" else ""
  let frac := c % 100
  let fracStr := (if frac < 10 then "0" else "") ++ toString frac
  sign ++ toString (c / 100) ++ "." ++ fracStr

/-- app.py metric rendering for P/E:
st.metric("P/E Ratio", f"{data['pe_ratio']:.2f}" if data['pe_ratio'] else "N/A"),
i.e. the truthiness test renders "N/A" exactly for the value 0. -/
def render_pe_metric (pe : ℚ) : String :=
  if pe ≠ 0 then formatF2 pe else "N/A"

/-- utils.py format_pe_ratio: "N/A" for None or a value ≤ 0, two-decimal
formatting otherwise. -/
def format_pe_ratio (pe : Option ℚ) : String :=
  match pe with
  | none => "N/A"
  | some v => if v ≤ 0 then "N/A" else formatF2 v

/-- The states a StockTicker can reach: the fresh state, and the closure
under add_symbol, remove_symbol and get_stock_data (the latter with any
fetch oracle, clock and symbol; get_all_data only iterates it). -/
inductive Reachable : StockTicker → Prop where
  | init : Reachable StockTicker.init
  | add (t : StockTicker) (s : String) : Reachable t → Reachable (add_symbol t s).2
  | rem (t : StockTicker) (s : String) : Reachable t → Reachable (remove_symbol t s).2
  | quote (t : StockTicker) (fetch : String → Option FetchResult) (now : Nat) (s : String) :
      Reachable t → Reachable (get_stock_data t fetch now s).2

/-! ### Basic facts about the string normalization -/

theorem charToNat_ofNat_valid (n : Nat) (h : n.isValidChar) : (Char.ofNat n).toNat = n := by
  rw [Char.ofNat, dif_pos h]
  rfl

/-- Char.toUpper is idempotent: an uppercased character is no longer in the
lowercase ASCII range. -/
theorem charUpper_idem (c : Char) : Char.toUpper (Char.toUpper c) = Char.toUpper c := by
  unfold Char.toUpper
  by_cases h : c.toNat ≥ 97 ∧ c.toNat ≤ 122
  · rw [if_pos h]
    have hv : (c.toNat - 32).isValidChar := by
      left
      omega
    have hn : (Char.ofNat (c.toNat - 32)).toNat = c.toNat - 32 :=
      charToNat_ofNat_valid _ hv
    rw [if_neg]
    omega
  · rw [if_neg h, if_neg h]

/-- The model of str.upper is idempotent. -/
theorem pyUpper_idem (s : String) : pyUpper (pyUpper s) = pyUpper s := by
  unfold pyUpper
  apply congrArg String.mk
  show (s.data.map Char.toUpper).map Char.toUpper = s.data.map Char.toUpper
  rw [List.map_map]
  exact List.map_congr_left (fun c _ => charUpper_idem c)

/-! ### Association-list (Python dict) lemmas -/

theorem dict_any_iff_mem_keys {α : Type} (d : List (String × α)) (k : String) :
    d.any (fun p => p.1 == k) = true ↔ k ∈ d.map Prod.fst := by
  rw [List.any_eq_true]
  constructor
  · rintro ⟨p, hp, hk⟩
    exact List.mem_map.mpr ⟨p, hp, beq_iff_eq.mp hk⟩
  · intro hk
    rcases List.mem_map.mp hk with ⟨p, hp, hk⟩
    exact ⟨p, hp, beq_iff_eq.mpr hk⟩

theorem dictGet_eq_none_iff {α : Type} (d : List (String × α)) (k : String) :
    dictGet d k = none ↔ k ∉ d.map Prod.fst := by
  unfold dictGet
  rw [Option.map_eq_none', List.find?_eq_none]
  constructor
  · intro h hk
    rcases List.mem_map.mp hk with ⟨p, hp, hk⟩
    exact h p hp (beq_iff_eq.mpr hk)
  · intro h p hp hk
    exact h (List.mem_map.mpr ⟨p, hp, beq_iff_eq.mp hk⟩)

theorem dictGet_isSome_of_mem_keys {α : Type} {d : List (String × α)} {k : String}
    (h : k ∈ d.map Prod.fst) : (dictGet d k).isSome = true := by
  cases hg : dictGet d k with
  | none => exact absurd h ((dictGet_eq_none_iff d k).mp hg)
  | some v => rfl

theorem dictSet_keys_of_mem {α : Type} {d : List (String × α)} {k : String} (v : α)
    (h : k ∈ d.map Prod.fst) :
    (dictSet d k v).map Prod.fst = d.map Prod.fst := by
  unfold dictSet
  rw [if_pos ((dict_any_iff_mem_keys d k).mpr h)]
  rw [List.map_map]
  apply List.map_congr_left
  intro p _
  by_cases hp : p.1 = k
  · simp [hp]
  · simp [hp]

theorem dictSet_of_not_mem {α : Type} {d : List (String × α)} {k : String} (v : α)
    (h : k ∉ d.map Prod.fst) :
    dictSet d k v = d ++ [(k, v)] := by
  unfold dictSet
  rw [if_neg]
  intro hany
  exact h ((dict_any_iff_mem_keys d k).mp hany)

theorem dictDel_keys {α : Type} (d : List (String × α)) (k : String) :
    (dictDel d k).map Prod.fst = (d.map Prod.fst).filter (fun x => x != k) := by
  unfold dictDel
  induction d with
  | nil => rfl
  | cons p rest ih =>
    by_cases hp : p.1 = k
    · simp [List.filter_cons, hp, ih]
    · simp [List.filter_cons, hp, ih]

theorem dictGet_dictDel_self {α : Type} (d : List (String × α)) (k : String) :
    dictGet (dictDel d k) k = none := by
  rw [dictGet_eq_none_iff, dictDel_keys]
  intro hmem
  have := List.of_mem_filter hmem
  simp at this

theorem dictDel_append_singleton {α : Type} {d : List (String × α)} {k : String} (v : α)
    (h : k ∉ d.map Prod.fst) :
    dictDel (d ++ [(k, v)]) k = d := by
  unfold dictDel
  rw [List.filter_append]
  have h1 : d.filter (fun p => p.1 != k) = d := by
    rw [List.filter_eq_self]
    intro p hp
    simp only [bne_iff_ne, ne_eq]
    intro hk
    exact h (List.mem_map.mpr ⟨p, hp, hk⟩)
  have h2 : [(k, v)].filter (fun p : String × α => p.1 != k) = [] := by
    simp
  rw [h1, h2, List.append_nil]

/-! ### get_stock_data preserves the registry and the history keys -/

theorem gsd_symbols (t : StockTicker) (fetch : String → Option FetchResult)
    (now : Nat) (s : String) :
    (get_stock_data t fetch now s).2.symbols = t.symbols := by
  unfold get_stock_data
  split
  · rfl
  · split
    · rfl
    · split
      · rfl
      · rfl

theorem gsd_keys (t : StockTicker) (fetch : String → Option FetchResult)
    (now : Nat) (s : String) :
    (get_stock_data t fetch now s).2.price_history.map Prod.fst =
      t.price_history.map Prod.fst := by
  unfold get_stock_data
  split
  · rfl
  · split
    · rfl
    · split
      · rfl
      · rename_i buf hg
        have hmem : s ∈ t.price_history.map Prod.fst := by
          by_contra hn
          rw [(dictGet_eq_none_iff _ _).mpr hn] at hg
          cases hg
        exact dictSet_keys_of_mem _ hmem

/-! ### The state invariant and its preservation -/

/-- Invariant of every reachable StockTicker state: every stored symbol is
uppercase-normalized, the registry has no duplicates, and the history dict
has exactly the tracked symbols as keys, in the same order. -/
structure Inv (t : StockTicker) : Prop where
  upper : ∀ s ∈ t.symbols, pyUpper s = s
  nodup : t.symbols.Nodup
  keys : t.price_history.map Prod.fst = t.symbols

theorem Inv.map_pyUpper_eq {t : StockTicker} (hi : Inv t) :
    t.symbols.map pyUpper = t.symbols := by
  have := List.map_congr_left (f := pyUpper) (g := id) (l := t.symbols)
    (fun a ha => hi.upper a ha)
  rw [this, List.map_id]

theorem inv_init : Inv StockTicker.init :=
  ⟨fun s hs => absurd hs (List.not_mem_nil s), List.nodup_nil, rfl⟩

theorem inv_add (t : StockTicker) (s : String) (hi : Inv t) : Inv (add_symbol t s).2 := by
  unfold add_symbol
  by_cases hmem : pyUpper s ∈ t.symbols.map pyUpper
  · rw [if_pos hmem]
    exact hi
  · rw [if_neg hmem]
    have hnotin : pyUpper s ∉ t.symbols := by
      intro hin
      apply hmem
      rw [hi.map_pyUpper_eq]
      exact hin
    have hkeys : pyUpper s ∉ t.price_history.map Prod.fst := by
      rw [hi.keys]
      exact hnotin
    refine ⟨?_, ?_, ?_⟩
    · intro x hx
      rcases List.mem_append.mp hx with hx | hx
      · exact hi.upper x hx
      · rcases List.mem_singleton.mp hx with rfl
        exact pyUpper_idem s
    · rw [List.nodup_append]
      exact ⟨hi.nodup, List.nodup_singleton _,
        fun a ha hb => hnotin ((List.mem_singleton.mp hb) ▸ ha)⟩
    · show (dictSet t.price_history (pyUpper s) []).map Prod.fst = _
      rw [dictSet_of_not_mem _ hkeys, List.map_append, hi.keys]
      rfl

theorem inv_rem (t : StockTicker) (s : String) (hi : Inv t) : Inv (remove_symbol t s).2 := by
  unfold remove_symbol
  by_cases hmem : pyUpper s ∈ t.symbols.map pyUpper
  · rw [if_pos hmem]
    have hin : pyUpper s ∈ t.symbols := by
      rw [← hi.map_pyUpper_eq]
      exact hmem
    have hany : t.price_history.any (fun p => p.1 == pyUpper s) = true := by
      rw [dict_any_iff_mem_keys, hi.keys]
      exact hin
    refine ⟨?_, ?_, ?_⟩
    · intro x hx
      exact hi.upper x ((t.symbols.erase_sublist (pyUpper s)).mem hx)
    · exact hi.nodup.erase _
    · show (if t.price_history.any (fun p => p.1 == pyUpper s) then
          dictDel t.price_history (pyUpper s) else t.price_history).map Prod.fst = _
      rw [if_pos hany, dictDel_keys, hi.keys, hi.nodup.erase_eq_filter]
  · rw [if_neg hmem]
    exact hi

theorem inv_gsd (t : StockTicker) (fetch : String → Option FetchResult)
    (now : Nat) (s : String) (hi : Inv t) : Inv (get_stock_data t fetch now s).2 :=
  ⟨gsd_symbols t fetch now s ▸ hi.upper,
   gsd_symbols t fetch now s ▸ hi.nodup,
   by rw [gsd_keys, gsd_symbols, hi.keys]⟩

/-- Every reachable state satisfies the invariant. -/
theorem reachable_inv {t : StockTicker} (h : Reachable t) : Inv t := by
  induction h with
  | init => exact inv_init
  | add t s _ ih => exact inv_add t s ih
  | rem t s _ ih => exact inv_rem t s ih
  | quote t fetch now s _ ih => exact inv_gsd t fetch now s ih

/-! ### The bounded history buffer (deque with maxlen) -/

/-- Folding dequeAppend keeps the last `cap` elements of everything appended. -/
theorem dequeAppend_foldl (cap : Nat) (hcap : 0 < cap) :
    ∀ (xs buf : List PriceSample), buf.length ≤ cap →
      xs.foldl (dequeAppend cap) buf = (buf ++ xs).drop (buf.length + xs.length - cap) := by
  intro xs
  induction xs with
  | nil =>
    intro buf hb
    simp [Nat.sub_eq_zero_of_le hb]
  | cons x xs ih =>
    intro buf hb
    rw [List.foldl_cons]
    by_cases hlen : cap ≤ buf.length
    · have hEq : buf.length = cap := Nat.le_antisymm hb hlen
      have hstep : dequeAppend cap buf x = buf.tail ++ [x] := by
        unfold dequeAppend
        rw [if_pos hlen]
      have hb' : (buf.tail ++ [x]).length ≤ cap := by
        simp only [List.length_append, List.length_tail, List.length_cons,
          List.length_nil]
        omega
      rw [hstep, ih _ hb']
      obtain ⟨b, bs, rfl⟩ : ∃ b bs, buf = b :: bs := by
        cases buf with
        | nil => simp at hEq; omega
        | cons b bs => exact ⟨b, bs, rfl⟩
      simp only [List.tail_cons, List.length_append, List.length_cons,
        List.length_nil] at hEq ⊢
      have hidx1 : bs.length + 1 + xs.length - cap = xs.length := by omega
      have hidx2 : bs.length + 1 + (xs.length + 1) - cap = xs.length + 1 := by omega
      rw [hidx1, hidx2, List.append_assoc, List.singleton_append, List.cons_append,
        List.drop_succ_cons]
    · have hstep : dequeAppend cap buf x = buf ++ [x] := by
        unfold dequeAppend
        rw [if_neg hlen]
      have hb' : (buf ++ [x]).length ≤ cap := by
        simp only [List.length_append, List.length_cons, List.length_nil]
        omega
      rw [hstep, ih _ hb', List.append_assoc, List.singleton_append]
      have hidx : (buf ++ [x]).length + xs.length - cap
          = buf.length + (x :: xs).length - cap := by
        simp only [List.length_append, List.length_cons, List.length_nil]
        omega
      rw [hidx]

/-- Claim C3: appending N samples to a fresh bounded history buffer leaves
exactly min N capacity entries, namely the last capacity appended samples in
oldest-first order (all N, in order, when N is at most the capacity). -/
theorem history_buffer_fifo (samples : List PriceSample) :
    (samples.foldl (dequeAppend MAX_PRICE_HISTORY) []).length
        = min samples.length MAX_PRICE_HISTORY ∧
    samples.foldl (dequeAppend MAX_PRICE_HISTORY) []
        = samples.drop (samples.length - MAX_PRICE_HISTORY) := by
  have h := dequeAppend_foldl MAX_PRICE_HISTORY (by decide) samples [] (by simp)
  simp only [List.nil_append, List.length_nil, Nat.zero_add] at h
  refine ⟨?_, h⟩
  rw [h, List.length_drop]
  omega

/-! ### The quote arithmetic (Claim C6) -/

/-- Claim C6: every QuoteRecord emitted by a successful get_stock_data has
change = current_price - previous_close and change_percent =
change / previous_close * 100, except that change_percent = 0 when
previous_close = 0; this agrees with utils.calculate_percentage_change,
which in particular yields +10 for current=110, previous=100 and 0 whenever
previous = 0. -/
theorem quote_change_formula :
    (∀ (t : StockTicker) (fetch : String → Option FetchResult) (now : Nat)
        (sym : String) (rec : QuoteRecord) (t' : StockTicker),
        get_stock_data t fetch now sym = (some rec, t') →
          rec.change = rec.current_price - rec.previous_close ∧
          rec.change_percent =
            (if rec.previous_close = 0 then 0
             else rec.change / rec.previous_close * 100) ∧
          rec.change_percent
            = calculate_percentage_change rec.current_price rec.previous_close) ∧
    calculate_percentage_change 110 100 = 10 ∧
    (∀ c : ℚ, calculate_percentage_change c 0 = 0) := by
  refine ⟨?_, ?_, ?_⟩
  · intro t fetch now sym rec t' h
    unfold get_stock_data at h
    split at h
    · simp at h
    · split at h
      · simp at h
      · split at h
        · simp at h
        · simp only [Prod.mk.injEq, Option.some.injEq] at h
          obtain ⟨hrec, -⟩ := h
          subst hrec
          exact ⟨rfl, rfl, rfl⟩
  · unfold calculate_percentage_change
    rw [if_neg (by norm_num)]
    norm_num
  · intro c
    unfold calculate_percentage_change
    rw [if_pos rfl]

/-- Witness state: a fresh ticker tracking AAPL. -/
def tW : StockTicker := (add_symbol StockTicker.init "AAPL").2

/-- Witness info record for a successful fetch. -/
def infoW : TickerInfo :=
  { previousClose := some 100
  , volume := some 1000
  , marketCap := some 1000000
  , trailingPE := some 20
  , longName := some "Apple Inc."
  , sector := some "Technology"
  , industry := some "Consumer Electronics" }

/-- Witness oracle: every fetch succeeds with a single close of 110. -/
def fetchW : String → Option FetchResult :=
  fun _ => some { info := infoW, hist_close := [110] }

/-- The QuoteRecord that get_stock_data produces from tW and fetchW. -/
def recW : QuoteRecord :=
  { symbol := "AAPL"
  , current_price := 110
  , previous_close := 100
  , change := 110 - 100
  , change_percent := (110 - 100) / 100 * 100
  , volume := 1000
  , market_cap := 1000000
  , pe_ratio := 20
  , company_name := "Apple Inc."
  , sector := "Technology"
  , industry := "Consumer Electronics"
  , timestamp := 0 }

/-- The ticker state after that fetch. -/
def tW2 : StockTicker := (get_stock_data tW fetchW 0 "AAPL").2

theorem quote_change_formula_witness :
    recW.change = recW.current_price - recW.previous_close ∧
    recW.change_percent =
      (if recW.previous_close = 0 then 0
       else recW.change / recW.previous_close * 100) ∧
    recW.change_percent
      = calculate_percentage_change recW.current_price recW.previous_close :=
  quote_change_formula.1 tW fetchW 0 "AAPL" recW tW2 (by rfl)

/-! ### Duplicate adds, removal, and the registry/history correspondence -/

/-- Claim C4: after an add stored a symbol, a second add of the same symbol
in any casing returns false and leaves the state (registry contents and
order, and every history buffer) exactly as it was. -/
theorem duplicate_add_no_mutation (t t₁ : StockTicker) (s s' : String)
    (hadd : add_symbol t s = (true, t₁)) (hcase : pyUpper s' = pyUpper s) :
    add_symbol t₁ s' = (false, t₁) := by
  unfold add_symbol at hadd ⊢
  split at hadd
  · exact absurd (congrArg Prod.fst hadd) (by simp)
  · have ht₁ : t₁ = { symbols := t.symbols ++ [pyUpper s]
                    , price_history := dictSet t.price_history (pyUpper s) [] } :=
      (congrArg Prod.snd hadd).symm
    have hmem' : pyUpper s' ∈ t₁.symbols.map pyUpper := by
      rw [ht₁, hcase]
      simp only [List.map_append, List.map_cons, List.map_nil]
      refine List.mem_append.mpr (Or.inr ?_)
      simp [pyUpper_idem]
    rw [if_pos hmem']

/-- Witness state for C4: a fresh ticker after add_symbol "aapl". -/
def tWdup : StockTicker := (add_symbol StockTicker.init "aapl").2

theorem duplicate_add_no_mutation_witness :
    add_symbol tWdup "AaPl" = (false, tWdup) :=
  duplicate_add_no_mutation StockTicker.init tWdup "aapl" "AaPl" (by rfl) (by decide)

/-- Claim C5: on a reachable state, removing a tracked symbol returns true,
the symbol disappears from the registry and its history reads back empty;
removing an untracked symbol returns false and changes nothing. -/
theorem remove_symbol_spec (t : StockTicker) (s : String) (hr : Reachable t) :
    (pyUpper s ∈ t.symbols.map pyUpper →
       (remove_symbol t s).1 = true ∧
       pyUpper s ∉ (remove_symbol t s).2.symbols ∧
       history_of (remove_symbol t s).2 (pyUpper s) = []) ∧
    (pyUpper s ∉ t.symbols.map pyUpper → remove_symbol t s = (false, t)) := by
  have hi := reachable_inv hr
  constructor
  · intro hmem
    have hin : pyUpper s ∈ t.symbols := by
      rw [← hi.map_pyUpper_eq]
      exact hmem
    have hany : t.price_history.any (fun p => p.1 == pyUpper s) = true := by
      rw [dict_any_iff_mem_keys, hi.keys]
      exact hin
    unfold remove_symbol
    rw [if_pos hmem]
    refine ⟨rfl, ?_, ?_⟩
    · intro hmem2
      exact ((hi.nodup.mem_erase_iff).mp hmem2).1 rfl
    · unfold history_of
      show (dictGet (if t.price_history.any (fun p => p.1 == pyUpper s) then
          dictDel t.price_history (pyUpper s) else t.price_history)
          (pyUpper s)).getD [] = []
      rw [if_pos hany, dictGet_dictDel_self]
      rfl
  · intro hmem
    unfold remove_symbol
    rw [if_neg hmem]

theorem remove_symbol_spec_witness :
    ((remove_symbol tW "aapl").1 = true ∧
     pyUpper "aapl" ∉ (remove_symbol tW "aapl").2.symbols ∧
     history_of (remove_symbol tW "aapl").2 (pyUpper "aapl") = []) :=
  (remove_symbol_spec tW "aapl"
    (Reachable.add StockTicker.init "AAPL" Reachable.init)).1 (by decide)

/-- Claim C9: on every reachable state, the history dict has a key for a
symbol exactly when the symbol is tracked. -/
theorem tracked_iff_history_key (t : StockTicker) (hr : Reachable t) :
    ∀ s, s ∈ t.price_history.map Prod.fst ↔ s ∈ t.symbols := by
  intro s
  rw [(reachable_inv hr).keys]

theorem tracked_iff_history_key_witness :
    ("AAPL" ∈ tW.price_history.map Prod.fst ↔ "AAPL" ∈ tW.symbols) :=
  tracked_iff_history_key tW (Reachable.add StockTicker.init "AAPL" Reachable.init) "AAPL"

/-- Claim C10: on a reachable state, adding a not-yet-tracked symbol and then
removing it returns true both times and restores exactly the previous
registry and history store. -/
theorem add_remove_roundtrip (t : StockTicker) (s : String) (hr : Reachable t)
    (hnew : pyUpper s ∉ t.symbols.map pyUpper) :
    (add_symbol t s).1 = true ∧
    remove_symbol (add_symbol t s).2 s = (true, t) := by
  have hi := reachable_inv hr
  have hnotin : pyUpper s ∉ t.symbols := by
    intro hin
    apply hnew
    rw [hi.map_pyUpper_eq]
    exact hin
  have hkeys : pyUpper s ∉ t.price_history.map Prod.fst := by
    rw [hi.keys]
    exact hnotin
  unfold add_symbol
  rw [if_neg hnew]
  refine ⟨rfl, ?_⟩
  show remove_symbol
      { symbols := t.symbols ++ [pyUpper s]
      , price_history := dictSet t.price_history (pyUpper s) [] } s = (true, t)
  rw [dictSet_of_not_mem _ hkeys]
  have hmem2 : pyUpper s ∈ (t.symbols ++ [pyUpper s]).map pyUpper := by
    simp only [List.map_append, List.map_cons, List.map_nil]
    refine List.mem_append.mpr (Or.inr ?_)
    simp [pyUpper_idem]
  unfold remove_symbol
  rw [if_pos hmem2]
  have e1 : (t.symbols ++ [pyUpper s]).erase (pyUpper s) = t.symbols := by
    rw [List.erase_append_right _ hnotin, List.erase_cons_head, List.append_nil]
  have hany2 : (t.price_history ++ [(pyUpper s, ([] : List PriceSample))]).any
      (fun p => p.1 == pyUpper s) = true := by
    rw [dict_any_iff_mem_keys]
    simp
  have e2 : dictDel (t.price_history ++ [(pyUpper s, ([] : List PriceSample))]) (pyUpper s)
      = t.price_history := dictDel_append_singleton _ hkeys
  rw [e1, if_pos hany2, e2]

/-- Witness state for C10: a fresh ticker tracking MSFT. -/
def tWm : StockTicker := (add_symbol StockTicker.init "MSFT").2

theorem add_remove_roundtrip_witness :
    (add_symbol tWm "aapl").1 = true ∧
    remove_symbol (add_symbol tWm "aapl").2 "aapl" = (true, tWm) :=
  add_remove_roundtrip tWm "aapl"
    (Reachable.add StockTicker.init "MSFT" Reachable.init) (by decide)

/-! ### The refresh cycle (Claim C7) -/

theorem gsd_some_fetchOk (t : StockTicker) (fetch : String → Option FetchResult)
    (now : Nat) (s : String) (d : QuoteRecord) (t' : StockTicker)
    (h : get_stock_data t fetch now s = (some d, t')) : fetchOk fetch s = true := by
  unfold get_stock_data at h
  split at h
  · simp at h
  · rename_i r hfetch
    split at h
    · simp at h
    · rename_i cp hlast
      unfold fetchOk
      rw [hfetch]
      have : r.hist_close ≠ [] := by
        intro hnil
        rw [hnil] at hlast
        cases hlast
      simp [this]

theorem gsd_none_unchanged (t : StockTicker) (fetch : String → Option FetchResult)
    (now : Nat) (s : String) (t' : StockTicker)
    (h : get_stock_data t fetch now s = (none, t')) : t' = t := by
  unfold get_stock_data at h
  split at h
  · exact (congrArg Prod.snd h).symm
  · split at h
    · exact (congrArg Prod.snd h).symm
    · split at h
      · exact (congrArg Prod.snd h).symm
      · simp at h

theorem gsd_none_not_fetchOk (t : StockTicker) (fetch : String → Option FetchResult)
    (now : Nat) (s : String) (t' : StockTicker)
    (hmem : s ∈ t.price_history.map Prod.fst)
    (h : get_stock_data t fetch now s = (none, t')) : fetchOk fetch s = false := by
  unfold get_stock_data at h
  split at h
  · rename_i hfetch
    unfold fetchOk
    rw [hfetch]
  · rename_i r hfetch
    split at h
    · rename_i hlast
      unfold fetchOk
      rw [hfetch]
      rw [List.getLast?_eq_none_iff] at hlast
      simp [hlast]
    · split at h
      · rename_i hdict
        exact absurd hmem ((dictGet_eq_none_iff _ _).mp hdict)
      · simp at h

/-- The cycle loop emits, in order, exactly the processed symbols whose
fetch succeeded; a failed symbol contributes nothing and the loop goes on. -/
theorem get_all_data_aux_keys (fetch : String → Option FetchResult) (now : Nat) :
    ∀ (l : List String) (t : StockTicker) (data : List (String × QuoteRecord)),
      (∀ s ∈ l, s ∈ t.price_history.map Prod.fst) →
      (∀ s ∈ l, s ∉ data.map Prod.fst) →
      l.Nodup →
      (get_all_data_aux fetch now l t data).1.map Prod.fst
        = data.map Prod.fst ++ l.filter (fun s => fetchOk fetch s) := by
  intro l
  induction l with
  | nil =>
    intro t data _ _ _
    simp [get_all_data_aux]
  | cons s rest ih =>
    intro t data hkeys hdata hnodup
    rcases hgs : get_stock_data t fetch now s with ⟨res, t2⟩
    have hkeys2 : t2.price_history.map Prod.fst = t.price_history.map Prod.fst := by
      have := gsd_keys t fetch now s
      rw [hgs] at this
      exact this
    cases res with
    | some d =>
      have hok : fetchOk fetch s = true := gsd_some_fetchOk t fetch now s d t2 hgs
      have hsdata : s ∉ data.map Prod.fst := hdata s (List.mem_cons_self s rest)
      have hset : dictSet data s d = data ++ [(s, d)] := dictSet_of_not_mem _ hsdata
      simp only [get_all_data_aux, hgs]
      rw [ih t2 (dictSet data s d)
        (fun x hx => by rw [hkeys2]; exact hkeys x (List.mem_cons_of_mem s hx))
        (fun x hx => by
          rw [hset]
          simp only [List.map_append, List.map_cons, List.map_nil, List.mem_append,
            List.mem_singleton]
          rintro (hc | hc)
          · exact hdata x (List.mem_cons_of_mem s hx) hc
          · exact (List.nodup_cons.mp hnodup).1 (hc ▸ hx))
        (List.nodup_cons.mp hnodup).2]
      rw [hset, List.filter_cons_of_pos hok]
      simp [List.append_assoc]
    | none =>
      have ht2 : t2 = t := gsd_none_unchanged t fetch now s t2 hgs
      have hok : fetchOk fetch s = false :=
        gsd_none_not_fetchOk t fetch now s t2 (hkeys s (List.mem_cons_self s rest)) hgs
      simp only [get_all_data_aux, hgs]
      rw [ih t2 data
        (fun x hx => by rw [hkeys2]; exact hkeys x (List.mem_cons_of_mem s hx))
        (fun x hx => hdata x (List.mem_cons_of_mem s hx))
        (List.nodup_cons.mp hnodup).2]
      rw [List.filter_cons_of_neg (by rw [hok]; exact Bool.false_ne_true)]

/-- Claim C7: on a reachable state, one refresh cycle returns a mapping
whose keys are exactly the tracked symbols whose fetch succeeded, in
tracked (insertion) order; a failing symbol contributes no record and does
not stop the cycle from processing the remaining symbols. -/
theorem refresh_cycle_keys (t : StockTicker) (fetch : String → Option FetchResult)
    (now : Nat) (hr : Reachable t) :
    (get_all_data t fetch now).1.map Prod.fst
      = t.symbols.filter (fun s => fetchOk fetch s) := by
  have hi := reachable_inv hr
  unfold get_all_data
  have h := get_all_data_aux_keys fetch now t.symbols t []
    (fun s hs => by rw [hi.keys]; exact hs) (fun s _ => by simp) hi.nodup
  simpa using h

/-- Witness state for C7: a fresh ticker tracking AAPL then GOOGL. -/
def tW2sym : StockTicker := (add_symbol (add_symbol StockTicker.init "AAPL").2 "GOOGL").2

/-- Witness oracle for C7: the AAPL fetch fails, every other fetch succeeds. -/
def fetchW2 : String → Option FetchResult :=
  fun s => if s = "AAPL" then none else some { info := infoW, hist_close := [110] }

/-- The AAPL failure yields no record but GOOGL is still processed and kept. -/
theorem refresh_cycle_keys_witness :
    (get_all_data tW2sym fetchW2 0).1.map Prod.fst = ["GOOGL"] :=
  (refresh_cycle_keys tW2sym fetchW2 0
    (Reachable.add _ "GOOGL" (Reachable.add StockTicker.init "AAPL" Reachable.init))).trans
    (by decide)

/-! ### Validation and capacity are not wired into add_symbol (C1, C2) -/

/-- Claim C1 (code bug evidence): "123" fails the symbol pattern that
utils.validate_stock_symbol implements, yet add_symbol accepts it, mutates
the registry and stores the invalid symbol — app.py never calls the
validator. -/
theorem invalid_symbol_is_stored :
    validate_stock_symbol "123" = false ∧
    add_symbol StockTicker.init "123"
      = (true, { symbols := ["123"], price_history := [("123", [])] }) ∧
    "123" ∈ (add_symbol StockTicker.init "123").2.symbols := by
  refine ⟨by decide, by decide, by decide⟩

/-- Twenty distinct valid one-letter symbols. -/
def syms20 : List String :=
  ["A", "B", "C", "D", "E", "F", "G", "H", "I", "J",
   "K", "L", "M", "N", "O", "P", "Q", "R", "S", "T"]

/-- The ticker after adding those twenty symbols. -/
def t20 : StockTicker := syms20.foldl (fun t s => (add_symbol t s).2) StockTicker.init

/-- Claim C2 (code bug evidence): with the registry already holding
MAX_STOCKS_TO_TRACK = 20 symbols, a further add of a valid fresh symbol
still returns true and grows the registry to 21 — add_symbol never
consults the configured maximum. -/
theorem capacity_not_enforced :
    t20.symbols.length = MAX_STOCKS_TO_TRACK ∧
    syms20.all validate_stock_symbol = true ∧
    validate_stock_symbol "U" = true ∧
    (add_symbol t20 "U").1 = true ∧
    (add_symbol t20 "U").2.symbols.length = MAX_STOCKS_TO_TRACK + 1 := by
  refine ⟨by decide, by decide, by decide, by decide, by decide⟩

/-! ### P/E rendering (Claim C8) -/

/-- A two-decimal rendering always contains a dot, so it is never "N/A". -/
theorem formatF2_ne_NA (q : ℚ) : formatF2 q ≠ "N/A" := by
  intro h
  have hdot : Char.ofNat 46 ∈ (formatF2 q).data := by
    unfold formatF2
    simp only [String.data_append, List.mem_append]
    refine Or.inl (Or.inr ?_)
    decide
  rw [h] at hdot
  exact absurd hdot (by decide)

/-- Claim C8 counterexample: a negative P/E value is ≤ 0, yet the
dashboard's metric rendering shows "-5.00", not "N/A". -/
theorem pe_render_counterexample :
    ((-5 : ℚ) ≤ 0) ∧
    render_pe_metric (-5) = "-5.00" ∧
    render_pe_metric (-5) ≠ "N/A" := by
  refine ⟨by decide, by decide, by decide⟩

/-- Claim C8 amended: the dashboard metric renders "N/A" exactly for the
value 0 (the default taken when the field is absent); any nonzero value,
negative ones included, renders as the two-decimal number. The unused
helper utils.format_pe_ratio does render "N/A" for an absent value or one
≤ 0 and formats positive values to two decimals. -/
theorem pe_render_amended :
    (∀ pe : ℚ, render_pe_metric pe = "N/A" ↔ pe = 0) ∧
    format_pe_ratio none = "N/A" ∧
    (∀ v : ℚ, v ≤ 0 → format_pe_ratio (some v) = "N/A") ∧
    (∀ v : ℚ, 0 < v → format_pe_ratio (some v) = formatF2 v) := by
  refine ⟨?_, rfl, ?_, ?_⟩
  · intro pe
    constructor
    · intro h
      by_contra hne
      rw [show render_pe_metric pe = formatF2 pe from if_pos hne] at h
      exact formatF2_ne_NA pe h
    · intro h
      subst h
      rfl
  · intro v hv
    show (if v ≤ 0 then "N/A" else formatF2 v) = "N/A"
    rw [if_pos hv]
  · intro v hv
    show (if v ≤ 0 then "N/A" else formatF2 v) = formatF2 v
    rw [if_neg (not_le.mpr hv)]

theorem pe_render_amended_witness :
    (render_pe_metric 0 = "N/A" ↔ (0 : ℚ) = 0) ∧
    format_pe_ratio (some (-5)) = "N/A" ∧
    format_pe_ratio (some 20) = formatF2 20 :=
  ⟨pe_render_amended.1 0,
   pe_render_amended.2.2.1 (-5) (by decide),
   pe_render_amended.2.2.2 20 (by decide)⟩

end StockApp
